import Mathlib

/-!
Verification of the smart-search-mcp ingestion-and-ranking engine.

The development shallowly embeds the JavaScript sources:
  * `src/similarity.js`   — `cosineSimilarity`
  * `src/ajson-parser.js` — `parseLine`, `resolveKeyMeta`, `extractVec`,
                            `parseAjsonContent`, `loadEmbeddings`
  * `src/search.js`       — `semanticSearch`, `findRelated`

JavaScript numbers are modelled as exact rationals (the usual idealisation of
IEEE doubles); JS strings as Lean strings; a JS `Map` as its entry list in
insertion order; the filesystem as an optional directory listing; `async`
failure as `Option`/`Except`.
-/

namespace SmartSearch

/-!  String and rational helpers.

Lean's built-in `String` functions and the `Rat` field operations are
compiled with well-founded recursion or marked irreducible, so concrete
evaluations would not reduce inside the kernel.  The helpers below implement
the same operations through structurally recursive list code and through
`mkRat`/`Rat.divInt`/integer arithmetic, and are proved (where a proof is
needed) to agree with the standard operations.  -/

/-- Characters removed by JS `String.prototype.trim` (ASCII whitespace plus
NBSP and the BOM; the rarer Unicode space characters are omitted — no key
this program manipulates contains them). -/
def jsWhitespaceChar (c : Char) : Bool :=
  c == ' ' || c == '\t' || c == '\n' || c == '\r' || c == '\x0b' ||
    c == '\x0c' || c.toNat == 160 || c.toNat == 65279

/-- JS `s.trim()`. -/
def jsTrim (s : String) : String :=
  String.mk (((s.data.dropWhile jsWhitespaceChar).reverse.dropWhile
    jsWhitespaceChar).reverse)

/-- Split a character list at every occurrence of `c` (the result is never
empty). -/
def splitOnChar (c : Char) : List Char → List (List Char)
  | [] => [[]]
  | x :: xs =>
    match splitOnChar c xs with
    | [] => [[x]]
    | h :: t => if x == c then [] :: h :: t else (x :: h) :: t

/-- JS `s.split(c)` for a one-character separator. -/
def jsSplit (s : String) (c : Char) : List String :=
  (splitOnChar c s.data).map String.mk

/-- JS `s.endsWith(c)` for a one-character suffix. -/
def strEndsWithChar (s : String) (c : Char) : Bool :=
  s.data.getLast? == some c

/-- JS `s.slice(0, -1)`. -/
def dropLastChar (s : String) : String :=
  String.mk s.data.dropLast

/-- JS `s.startsWith(pre)`. -/
def strStartsWith (s pre : String) : Bool :=
  pre.data.isPrefixOf s.data

/-- JS `s.endsWith(suf)`. -/
def strEndsWith (s suf : String) : Bool :=
  suf.data.isSuffixOf s.data

/-- JS `s.toLowerCase()` (ASCII model; the paths compared by the folder
filter are, as in V8's simple case mapping, lowered characterwise). -/
def strToLower (s : String) : String :=
  String.mk (s.data.map Char.toLower)

/-- JS `s.slice(n)` for a non-negative `n`. -/
def strDropChars (s : String) (n : ℕ) : String :=
  String.mk (s.data.drop n)

/-- Rational addition through `mkRat` (agrees with `+`, see `qAdd_eq`). -/
def qAdd (a b : ℚ) : ℚ :=
  mkRat (a.num * (b.den : ℤ) + b.num * (a.den : ℤ)) (a.den * b.den)

/-- Rational multiplication through `mkRat` (agrees with `*`, see
`qMul_eq`). -/
def qMul (a b : ℚ) : ℚ :=
  mkRat (a.num * b.num) (a.den * b.den)

/-- Rational division through `Rat.divInt` (agrees with `/`, see
`qDiv_eq`; both give `0` for a zero divisor). -/
def qDiv (a b : ℚ) : ℚ :=
  Rat.divInt (a.num * (b.den : ℤ)) ((a.den : ℤ) * b.num)

/-- Rational order through cross-multiplication (agrees with `≤`, see
`qLe_iff`). -/
def qLe (a b : ℚ) : Bool :=
  a.num * (b.den : ℤ) ≤ b.num * (a.den : ℤ)

/-- JSON values as produced by JavaScript `JSON.parse`.  Numbers are exact
rationals; objects keep their properties in insertion order, as JS objects
do. -/
inductive Json where
  | null : Json
  | bool : Bool → Json
  | num : ℚ → Json
  | str : String → Json
  | arr : List Json → Json
  | obj : List (String × Json) → Json
deriving Inhabited

/-- JSON whitespace characters (RFC 8259: space, tab, line feed, carriage
return). -/
def jsonWs (c : Char) : Bool :=
  c == ' ' || c == '\t' || c == '\n' || c == '\r'

/-- Skip leading JSON whitespace. -/
def skipWs (cs : List Char) : List Char :=
  cs.dropWhile jsonWs

/-- Value of a hexadecimal digit. -/
def hexVal (c : Char) : Option Nat :=
  if '0' ≤ c ∧ c ≤ '9' then some (c.toNat - 48)
  else if 'a' ≤ c ∧ c ≤ 'f' then some (c.toNat - 87)
  else if 'A' ≤ c ∧ c ≤ 'F' then some (c.toNat - 70)
  else none

/-- Scan the body of a JSON string literal (the opening quote already
consumed), producing the UTF-16 code units it denotes and the remaining
input.  Escapes follow RFC 8259; an unescaped control character or a bad
escape is a parse error, exactly as in `JSON.parse`. -/
def parseStringUnits : List Char → Option (List Nat × List Char)
  | [] => none
  | '"' :: rest => some ([], rest)
  | '\\' :: '"' :: rest => (parseStringUnits rest).map fun p => (34 :: p.1, p.2)
  | '\\' :: '\\' :: rest => (parseStringUnits rest).map fun p => (92 :: p.1, p.2)
  | '\\' :: '/' :: rest => (parseStringUnits rest).map fun p => (47 :: p.1, p.2)
  | '\\' :: 'b' :: rest => (parseStringUnits rest).map fun p => (8 :: p.1, p.2)
  | '\\' :: 'f' :: rest => (parseStringUnits rest).map fun p => (12 :: p.1, p.2)
  | '\\' :: 'n' :: rest => (parseStringUnits rest).map fun p => (10 :: p.1, p.2)
  | '\\' :: 'r' :: rest => (parseStringUnits rest).map fun p => (13 :: p.1, p.2)
  | '\\' :: 't' :: rest => (parseStringUnits rest).map fun p => (9 :: p.1, p.2)
  | '\\' :: 'u' :: a :: b :: c :: d :: rest =>
    match hexVal a, hexVal b, hexVal c, hexVal d with
    | some ha, some hb, some hc, some hd =>
      (parseStringUnits rest).map fun p =>
        ((((ha * 16 + hb) * 16 + hc) * 16 + hd) :: p.1, p.2)
    | _, _, _, _ => none
  | '\\' :: _ => none
  | c :: rest =>
    if c.toNat < 32 then none
    else (parseStringUnits rest).map fun p => (c.toNat :: p.1, p.2)

/-- Decode a UTF-16 code-unit sequence to characters, combining surrogate
pairs.  A lone surrogate is replaced by U+FFFD (a JS string can hold a lone
surrogate, a Lean `String` cannot; the keys this program manipulates never
contain one). -/
def utf16Decode : List Nat → List Char
  | [] => []
  | [h] =>
    if 0xD800 ≤ h ∧ h ≤ 0xDFFF then [Char.ofNat 0xFFFD] else [Char.ofNat h]
  | h :: l :: rest =>
    if 0xD800 ≤ h ∧ h ≤ 0xDBFF then
      if 0xDC00 ≤ l ∧ l ≤ 0xDFFF then
        Char.ofNat (0x10000 + (h - 0xD800) * 0x400 + (l - 0xDC00)) :: utf16Decode rest
      else
        Char.ofNat 0xFFFD :: utf16Decode (l :: rest)
    else if 0xDC00 ≤ h ∧ h ≤ 0xDFFF then
      Char.ofNat 0xFFFD :: utf16Decode (l :: rest)
    else
      Char.ofNat h :: utf16Decode (l :: rest)

/-- Numeric value of a digit string. -/
def digitsToNat (ds : List Char) : Nat :=
  ds.foldl (fun a c => a * 10 + (c.toNat - 48)) 0

/-- Parse a JSON number (RFC 8259 grammar: optional minus, integer part with
no leading zero, optional fraction, optional exponent), returning its exact
rational value and the remaining input. -/
def parseNumber (cs : List Char) : Option (ℚ × List Char) :=
  let (neg, cs1) : Bool × List Char :=
    match cs with
    | '-' :: r => (true, r)
    | _ => (false, cs)
  let intPart : Option (Nat × List Char) :=
    match cs1 with
    | '0' :: r =>
      match r with
      | c :: _ => if c.isDigit then none else some (0, r)
      | [] => some (0, [])
    | c :: r =>
      if c.isDigit then
        some (digitsToNat (c :: r.takeWhile Char.isDigit), r.dropWhile Char.isDigit)
      else none
    | [] => none
  match intPart with
  | none => none
  | some (i, cs2) =>
    -- fraction digits (a '.' not followed by a digit is a parse error)
    let fracPart : Option (List Char × List Char) :=
      match cs2 with
      | '.' :: r =>
        let fds := r.takeWhile Char.isDigit
        if fds.isEmpty then none else some (fds, r.dropWhile Char.isDigit)
      | _ => some ([], cs2)
    match fracPart with
    | none => none
    | some (fds, cs3) =>
      let expPart : Option (ℤ × List Char) :=
        match cs3 with
        | 'e' :: r | 'E' :: r =>
          let (esign, r1) : Bool × List Char :=
            match r with
            | '+' :: r2 => (false, r2)
            | '-' :: r2 => (true, r2)
            | _ => (false, r)
          let eds := r1.takeWhile Char.isDigit
          if eds.isEmpty then none
          else
            some ((if esign then -(digitsToNat eds : ℤ) else (digitsToNat eds : ℤ)),
              r1.dropWhile Char.isDigit)
        | _ => some (0, cs3)
      match expPart with
      | none => none
      | some (e, cs4) =>
        -- value = ±(i.fds)·10^e, built as an exact rational from the integer
        -- mantissa i·10^|fds| + fds and the shifted exponent e − |fds|
        let mant : ℤ := (i * 10 ^ fds.length + digitsToNat fds : ℕ)
        let mant : ℤ := if neg then -mant else mant
        let ex : ℤ := e - fds.length
        let q : ℚ :=
          if 0 ≤ ex then mkRat (mant * 10 ^ ex.toNat) 1
          else mkRat mant (10 ^ (-ex).toNat)
        some (q, cs4)

/-- Insert a key/value pair into an object under JS semantics: a duplicate
key keeps its first position but takes the latest value. -/
def objInsert (kvs : List (String × Json)) (k : String) (v : Json) :
    List (String × Json) :=
  if kvs.any (fun p => p.1 == k) then
    kvs.map (fun p => if p.1 == k then (k, v) else p)
  else kvs ++ [(k, v)]

/-- What the recursive-descent parser is currently parsing: a value, an
object body (opening brace consumed), the members of an object, an array
body (opening bracket consumed), or the elements of an array.  Folding the
mutually recursive procedures into one function keeps the recursion
structural in the fuel, so concrete parses reduce inside the kernel. -/
inductive PMode where
  | value : PMode
  | objBody : PMode
  | members : List (String × Json) → PMode
  | arrBody : PMode
  | elems : List Json → PMode

/-- The recursive-descent JSON parser.  `fuel` bounds the recursion depth;
`jsonParse` supplies enough fuel for any input of the given length. -/
def parseF : Nat → PMode → List Char → Option (Json × List Char)
  | 0, _, _ => none
  | fuel + 1, .value, cs =>
    match skipWs cs with
    | '{' :: r => parseF fuel .objBody r
    | '[' :: r => parseF fuel .arrBody r
    | '"' :: r => (parseStringUnits r).map fun p => (.str (String.mk (utf16Decode p.1)), p.2)
    | 't' :: 'r' :: 'u' :: 'e' :: r => some (.bool true, r)
    | 'f' :: 'a' :: 'l' :: 's' :: 'e' :: r => some (.bool false, r)
    | 'n' :: 'u' :: 'l' :: 'l' :: r => some (.null, r)
    | cs' => (parseNumber cs').map fun p => (.num p.1, p.2)
  | fuel + 1, .objBody, cs =>
    match skipWs cs with
    | '}' :: r => some (.obj [], r)
    | cs' => parseF fuel (.members []) cs'
  | fuel + 1, .members acc, cs =>
    -- one or more `"key": value` members separated by commas, then `}`
    match cs with
    | '"' :: r =>
      match parseStringUnits r with
      | none => none
      | some (us, r1) =>
        let key := String.mk (utf16Decode us)
        match skipWs r1 with
        | ':' :: r2 =>
          match parseF fuel .value r2 with
          | none => none
          | some (v, r3) =>
            let acc' := objInsert acc key v
            match skipWs r3 with
            | ',' :: r4 => parseF fuel (.members acc') (skipWs r4)
            | '}' :: r4 => some (.obj acc', r4)
            | _ => none
        | _ => none
    | _ => none
  | fuel + 1, .arrBody, cs =>
    match skipWs cs with
    | ']' :: r => some (.arr [], r)
    | cs' => parseF fuel (.elems []) cs'
  | fuel + 1, .elems acc, cs =>
    -- one or more elements separated by commas, then `]`
    match parseF fuel .value cs with
    | none => none
    | some (v, r) =>
      match skipWs r with
      | ',' :: r1 => parseF fuel (.elems (acc ++ [v])) r1
      | ']' :: r1 => some (.arr (acc ++ [v]), r1)
      | _ => none

/-- Parse one JSON value. -/
def parseValue (fuel : Nat) (cs : List Char) : Option (Json × List Char) :=
  parseF fuel .value cs

/-- Model of JavaScript `JSON.parse`: parse a complete JSON text (leading and
trailing whitespace allowed, nothing else may follow), or fail. -/
def jsonParse (s : String) : Option Json :=
  match parseValue (2 * s.data.length + 4) s.data with
  | some (j, rest) => if skipWs rest = [] then some j else none
  | none => none

/-!  src/ajson-parser.js  -/

/-- The embedding model key used in the AJSON format (`MODEL_KEY` in the
source). -/
def MODEL_KEY : String := "TaylorAI/bge-micro-v2"

/-- Key marker for full-note embeddings (the source names it with a
`_PREFIX` suffix, which this development cannot use). -/
def SOURCE_MARKER : String := "smart_sources:"

/-- Key marker for heading-level block embeddings (the source names it with
a `_PREFIX` suffix). -/
def BLOCK_MARKER : String := "smart_blocks:"

/-- Stable insertion sort with a boolean comparison (structurally recursive,
so concrete evaluations reduce). -/
def insertByBool (le : α → α → Bool) (x : α) : List α → List α
  | [] => [x]
  | y :: ys => if le x y then x :: y :: ys else y :: insertByBool le x ys

/-- Sort with a boolean comparison by insertion. -/
def sortByBool (le : α → α → Bool) : List α → List α
  | [] => []
  | x :: xs => insertByBool le x (sortByBool le xs)

/-- Is a string a canonical array-index property name (all digits, no
leading zero except `"0"` itself, value below 2^32 − 1)?  JS objects list
such keys first, in ascending numeric order. -/
def isCanonicalIndex (s : String) : Bool :=
  match s.data with
  | [] => false
  | [c] => c.isDigit
  | c :: cs => c.isDigit && c != '0' && cs.all Char.isDigit &&
      digitsToNat s.data < 4294967295

/-- Model of `Object.keys` on an object built by `JSON.parse`: canonical
array-index keys first in ascending numeric order, then the remaining keys
in insertion order. -/
def jsKeys (kvs : List (String × Json)) : List String :=
  let ks := kvs.map (fun p => p.1)
  sortByBool (fun a b => digitsToNat a.data ≤ digitsToNat b.data)
      (ks.filter isCanonicalIndex) ++
    ks.filter (fun k => !(isCanonicalIndex k))

/-- Property lookup in a parsed object (keys are unique after
`objInsert`). -/
def objLookup (kvs : List (String × Json)) (k : String) : Option Json :=
  (kvs.find? (fun p => p.1 == k)).map (fun p => p.2)

/-- Model of `parseLine` from src/ajson-parser.js: parse a single trimmed line of an
AJSON file into a `(key, value)` pair — strip an optional trailing comma,
wrap in braces, `JSON.parse`, and take the first key.  Any failure yields
`none`. -/
def parseLine (line : String) : Option (String × Json) :=
  if line = "" then none
  else
    let normalized := if strEndsWithChar line ',' then dropLastChar line else line
    match jsonParse ("\x7b" ++ normalized ++ "\x7d") with
    | some (.obj kvs) =>
      match jsKeys kvs with
      | [] => none
      | k :: _ => (objLookup kvs k).map (fun v => (k, v))
    | _ => none

/-- Model of `resolveKeyMeta` from src/ajson-parser.js: determine entry type and path
from an AJSON key; `none` for an unrecognised marker. -/
def resolveKeyMeta (key : String) : Option (String × String) :=
  if strStartsWith key SOURCE_MARKER then
    some ("source", strDropChars key SOURCE_MARKER.length)
  else if strStartsWith key BLOCK_MARKER then
    some ("block", strDropChars key BLOCK_MARKER.length)
  else none

/-- Optional-chained property access `o?.k`: `none` on anything but an
object holding the key (the keys used here are never array indices, so the
non-object cases all give `undefined` in JS). -/
def jsGetField (j : Json) (k : String) : Option Json :=
  match j with
  | .obj kvs => objLookup kvs k
  | _ => none

/-- Model of `extractVec` from src/ajson-parser.js: navigate
`value?.embeddings?.[MODEL_KEY]?.vec` and keep the result only if it is a
non-empty array (`Array.isArray(vec) && vec.length > 0`; the elements are
not inspected). -/
def extractVec (value : Json) : Option (List Json) :=
  match ((jsGetField value "embeddings").bind
      (fun e => jsGetField e MODEL_KEY)).bind (fun m => jsGetField m "vec") with
  | some (.arr vs) => if vs.length > 0 then some vs else none
  | _ => none

/-- One parsed AJSON entry: `{path, vec, type}` as pushed by
`parseAjsonContent`. -/
structure AjsonEntry where
  path : String
  vec : List Json
  type : String

/-- The per-line processing chain of `parseAjsonContent`: trim, `parseLine`,
`resolveKeyMeta`, `extractVec`; each stage's failure yields nothing. -/
def lineEntry (raw : String) : Option AjsonEntry :=
  let line := jsTrim raw
  if line = "" then none
  else
    match parseLine line with
    | none => none
    | some pair =>
      match resolveKeyMeta pair.1 with
      | none => none
      | some meta =>
        match extractVec pair.2 with
        | none => none
        | some vec => some ⟨meta.2, vec, meta.1⟩

/-- Model of `parseAjsonContent` from src/ajson-parser.js: process the file text
line-by-line, silently skipping blank, malformed or vector-less lines. -/
def parseAjsonContent (content : String) : List AjsonEntry :=
  if content = "" then []
  else
    (jsSplit content '\n').foldl
      (fun entries raw =>
        match lineEntry raw with
        | none => entries
        | some e => entries ++ [e]) []

/-!  Collection loader (`loadEmbeddings`).  The filesystem is modelled as an
optional directory listing: `none` when `readdir` throws (directory absent),
otherwise a list of `(filename, contents?)` pairs in enumeration order, with
`none` contents for a file whose read fails. -/

/-- A value stored in the embeddings `Map` built by the loader. -/
structure JNoteEntry where
  vec : List Json
  type : String

/-- JS `Map.prototype.set` on an entry list: an existing key keeps its
position and takes the new value, a new key is appended. -/
def mapSet (m : List (String × JNoteEntry)) (k : String) (v : JNoteEntry) :
    List (String × JNoteEntry) :=
  if m.any (fun p => p.1 == k) then
    m.map (fun p => if p.1 == k then (k, v) else p)
  else m ++ [(k, v)]

/-- JS `Map.prototype.get` on an entry list. -/
def jmapGet (m : List (String × JNoteEntry)) (k : String) : Option JNoteEntry :=
  (m.find? (fun p => p.1 == k)).map (fun p => p.2)

/-- Model of `loadEmbeddings` from src/ajson-parser.js over the modelled filesystem:
empty map when the directory is absent, keep `.ajson` files, skip unreadable
files, parse each and insert entries keyed by path (last write wins). -/
def loadEmbeddings (listing : Option (List (String × Option String))) :
    List (String × JNoteEntry) :=
  match listing with
  | none => []
  | some files =>
    (files.filter (fun f => strEndsWith f.1 ".ajson")).foldl
      (fun emb f =>
        match f.2 with
        | none => emb
        | some content =>
          (parseAjsonContent content).foldl
            (fun e entry => mapSet e entry.path ⟨entry.vec, entry.type⟩) emb) []

/-!  src/similarity.js

The source computes `Math.round((dot / (√magA·√magB)) * 1000) / 1000` on
floats; the model computes the same quantity exactly.  `Math.round x` is
`⌊x + 1/2⌋` (halves go toward +∞), and `⌊1000·dot/√(magA·magB) + 1/2⌋` is
obtained below through integer square roots — `jsRoundDivSqrt_eq` proves it
equal to the real-valued expression.  The guard `magnitude === 0` holds
exactly when either sum of squares is `0`, since `√magA·√magB = 0` iff
`magA = 0 ∨ magB = 0`; a rational is `0` iff its numerator is.  -/

/-- Binary search for the integer square root; structurally recursive in its
fuel.  Maintains `lo² ≤ n < (hi+1)²`. -/
def isqrtAux (n : Nat) : Nat → Nat → Nat → Nat
  | 0, lo, _ => lo
  | f + 1, lo, hi =>
    if lo = hi then lo
    else
      let mid := (lo + hi + 1) / 2
      if mid * mid ≤ n then isqrtAux n f mid hi else isqrtAux n f lo (mid - 1)

/-- Integer square root: `isqrt n = ⌊√n⌋` (see `isqrt_le` and
`lt_succ_isqrt`). -/
def isqrt (n : Nat) : Nat := isqrtAux n (n + 1) 0 n

/-- Floor of a non-negative rational, in ℕ. -/
def ratFloorNN (q : ℚ) : ℕ := q.num.toNat / q.den

/-- Computes `⌊A / √M + 1/2⌋` for `M > 0`, computed with integer arithmetic: with
`u := 4A²/M` one has `2|A|/√M = √u`, `⌊√u⌋ = isqrt ⌊u⌋`, and the floor is
recovered from `⌊√u⌋` (for `A ≥ 0`) or `⌈√u⌉` (for `A < 0`) by parity
arithmetic.  `jsRoundDivSqrt_eq` is the correctness proof. -/
def jsRoundDivSqrt (A M : ℚ) : ℤ :=
  let u : ℚ := qDiv (qMul (qMul (mkRat 4 1) A) A) M
  let n : ℕ := isqrt (ratFloorNN u)
  if 0 ≤ A.num then (((n + 1) / 2 : ℕ) : ℤ)
  else -(((if u.den = 1 ∧ u.num = ((n * n : ℕ) : ℤ) then n else n + 1) / 2 : ℕ) : ℤ)

/-- The single-pass `reduce` of `cosineSimilarity` (lines 27–34 of
src/similarity.js): accumulate `(dot, Σa², Σb²)` over the index-aligned
elements. -/
def simFold (a b : List ℚ) : ℚ × ℚ × ℚ :=
  (List.zip a b).foldl
    (fun acc p => (qAdd acc.1 (qMul p.1 p.2), qAdd acc.2.1 (qMul p.1 p.1),
      qAdd acc.2.2 (qMul p.2 p.2))) (0, 0, 0)

/-- Model of `cosineSimilarity` from src/similarity.js.  `none` models a
null/undefined argument (`!vecA || !vecB`). -/
def cosineSimilarity (vecA vecB : Option (List ℚ)) : ℚ :=
  match vecA, vecB with
  | none, _ => 0
  | _, none => 0
  | some a, some b =>
    if a.length ≠ b.length then 0
    else
      let t := simFold a b
      if t.2.1.num = 0 ∨ t.2.2.num = 0 then 0
      else mkRat (jsRoundDivSqrt (qMul t.1 (mkRat 1000 1)) (qMul t.2.1 t.2.2)) 1000

/-!  src/search.js  -/

/-- Constant `DEFAULT_LIMIT` from src/search.js. -/
def DEFAULT_LIMIT : ℤ := 10

/-- Constant `DEFAULT_THRESHOLD` from src/search.js (0.3). -/
def DEFAULT_THRESHOLD : ℚ := mkRat 3 10

/-- A value of the embeddings `Map` consumed by the orchestrator
(`{vec: number[], type: string}`). -/
structure NoteEntry where
  vec : List ℚ
  type : String
deriving DecidableEq

/-- The embeddings `Map`, as its entry list in insertion order. -/
abbrev Embeddings := List (String × NoteEntry)

/-- One search result `{path, score}`. -/
structure SearchResult where
  path : String
  score : ℚ
deriving DecidableEq

/-- The options object accepted by `semanticSearch`/`findRelated`
(`findRelated` has no `folder` option; a stray one is ignored, matching
JS). -/
structure SearchOptions where
  limit : Option ℤ
  threshold : Option ℚ
  type : Option String
  folder : Option String

/-- JS truthiness of an optional string option: absent and empty behave
alike (`options.type && …`, `options.folder ? … : null`). -/
def optTruthy : Option String → Option String
  | none => none
  | some s => if s = "" then none else some s

/-- JS `Map.prototype.get` on the orchestrator's map. -/
def mapGet (m : Embeddings) (k : String) : Option NoteEntry :=
  (m.find? (fun p => p.1 == k)).map (fun p => p.2)

/-- The `options.type` pre-filter: reject when an (effective) type filter is
present and the entry's type differs. -/
def typeRejects (t? : Option String) (entryType : String) : Bool :=
  match t? with
  | some t => entryType != t
  | none => false

/-- The folder pre-filter: reject when a folder prefix (already lowercased)
is present and the lowercased path does not start with it. -/
def folderRejects (fl : Option String) (path : String) : Bool :=
  match fl with
  | some f => !(strStartsWith (strToLower path) f)
  | none => false

/-- The retained-results `reduce` of `semanticSearch` (lines 43–55 of
src/search.js): filter by type and folder, score against the query vector,
keep entries whose score reaches the threshold, in map order. -/
def searchResults (queryArr : List ℚ) (embeddings : Embeddings)
    (t? fl : Option String) (threshold : ℚ) : List SearchResult :=
  embeddings.foldl
    (fun acc p =>
      if typeRejects t? p.2.type then acc
      else if folderRejects fl p.1 then acc
      else
        let score := cosineSimilarity (some queryArr) (some p.2.vec)
        if qLe threshold score then acc ++ [⟨p.1, score⟩] else acc) []

/-- The comparator `(a, b) => b.score - a.score` sorts by descending score:
`a` may precede `b` exactly when `a.score ≥ b.score`. -/
def scoreGe (a b : SearchResult) : Prop := qLe b.score a.score = true

instance : DecidableRel scoreGe :=
  fun a b => inferInstanceAs (Decidable (qLe b.score a.score = true))

/-- JS `Array.prototype.slice(0, e)`: a negative bound counts from the end,
a bound past the length is clamped. -/
def jsSlice0 (l : List α) (e : ℤ) : List α :=
  if e < 0 then l.take ((l.length + e).toNat) else l.take e.toNat

/-- The sorted retained results of `semanticSearch`, before truncation
(`results.sort((a, b) => b.score - a.score)`; JS sort is stable, as is
insertion sort). -/
def sortedSearch (queryArr : List ℚ) (embeddings : Embeddings)
    (o : SearchOptions) : List SearchResult :=
  List.insertionSort scoreGe
    (searchResults queryArr embeddings (optTruthy o.type)
      ((optTruthy o.folder).map strToLower) (o.threshold.getD DEFAULT_THRESHOLD))

/-- Model of `semanticSearch` from src/search.js.  The embedder is the one failure
point: its failure (`none`) propagates. -/
def semanticSearch (query : String) (embeddings : Embeddings)
    (embedder : String → Option (List ℚ)) (o : SearchOptions) :
    Option (List SearchResult) :=
  (embedder query).map fun queryArr =>
    jsSlice0 (sortedSearch queryArr embeddings o) (o.limit.getD DEFAULT_LIMIT)

/-- The exact error message thrown by `findRelated` for an unknown note
path. -/
def findRelatedMsg : String :=
  "findRelated: the requested note path was not found in the embeddings Map"

/-- The retained-results `reduce` of `findRelated` (lines 88–100 of
src/search.js): skip the source note itself, filter by type, score against
the source vector, keep by threshold. -/
def relatedResults (notePath : String) (source : NoteEntry)
    (embeddings : Embeddings) (t? : Option String) (threshold : ℚ) :
    List SearchResult :=
  embeddings.foldl
    (fun acc p =>
      if p.1 == notePath then acc
      else if typeRejects t? p.2.type then acc
      else
        let score := cosineSimilarity (some source.vec) (some p.2.vec)
        if qLe threshold score then acc ++ [⟨p.1, score⟩] else acc) []

/-- The sorted retained results of `findRelated`, before truncation. -/
def sortedRelated (notePath : String) (source : NoteEntry)
    (embeddings : Embeddings) (o : SearchOptions) : List SearchResult :=
  List.insertionSort scoreGe
    (relatedResults notePath source embeddings (optTruthy o.type)
      (o.threshold.getD DEFAULT_THRESHOLD))

/-- Model of `findRelated` from src/search.js: fails (throws) exactly when the note
path is absent from the map; the stored entries are objects, hence truthy,
so `!source` is precisely absence. -/
def findRelated (notePath : String) (embeddings : Embeddings)
    (o : SearchOptions) : Except String (List SearchResult) :=
  match mapGet embeddings notePath with
  | none => .error findRelatedMsg
  | some source =>
    .ok (jsSlice0 (sortedRelated notePath source embeddings o)
      (o.limit.getD DEFAULT_LIMIT))

/-!  Agreement of the computable rational helpers with the field
operations. -/

theorem qAdd_eq (a b : ℚ) : qAdd a b = a + b := by
  have ha : ((a.den : ℚ)) ≠ 0 := by exact_mod_cast a.den_nz
  have hb : ((b.den : ℚ)) ≠ 0 := by exact_mod_cast b.den_nz
  rw [qAdd, Rat.mkRat_eq_divInt, Rat.divInt_eq_div]
  conv_rhs => rw [← Rat.num_div_den a, ← Rat.num_div_den b]
  rw [div_add_div _ _ ha hb]
  push_cast
  ring_nf

theorem qMul_eq (a b : ℚ) : qMul a b = a * b := by
  rw [qMul, Rat.mkRat_eq_divInt, Rat.divInt_eq_div]
  conv_rhs => rw [← Rat.num_div_den a, ← Rat.num_div_den b]
  rw [div_mul_div_comm]
  push_cast
  ring_nf

theorem qDiv_eq (a b : ℚ) : qDiv a b = a / b := by
  rcases eq_or_ne b 0 with rfl | hb
  · simp [qDiv]
  · have ha : ((a.den : ℚ)) ≠ 0 := by exact_mod_cast a.den_nz
    have hbd : ((b.den : ℚ)) ≠ 0 := by exact_mod_cast b.den_nz
    have hbn : ((b.num : ℚ)) ≠ 0 := by exact_mod_cast Rat.num_ne_zero.mpr hb
    rw [qDiv, Rat.divInt_eq_div]
    conv_rhs => rw [← Rat.num_div_den a, ← Rat.num_div_den b]
    push_cast
    field_simp

theorem qLe_iff (a b : ℚ) : qLe a b = true ↔ a ≤ b := by
  rw [qLe, decide_eq_true_iff, Rat.le_def]

/-!  Correctness of the integer square-root rounding. -/

theorem isqrtAux_spec (n : ℕ) :
    ∀ f lo hi : ℕ, lo * lo ≤ n → n < (hi + 1) * (hi + 1) → lo ≤ hi →
      hi - lo < f →
      isqrtAux n f lo hi * isqrtAux n f lo hi ≤ n ∧
        n < (isqrtAux n f lo hi + 1) * (isqrtAux n f lo hi + 1) := by
  intro f
  induction f with
  | zero => intro lo hi _ _ hle hcnt; omega
  | succ f ih =>
    intro lo hi hlo hhi hle hcnt
    rw [isqrtAux]
    by_cases heq : lo = hi
    · rw [if_pos heq]; exact ⟨hlo, heq ▸ hhi⟩
    · rw [if_neg heq]
      have h1 : lo < (lo + hi + 1) / 2 := by omega
      have h2 : (lo + hi + 1) / 2 ≤ hi := by omega
      by_cases hm : (lo + hi + 1) / 2 * ((lo + hi + 1) / 2) ≤ n
      · rw [if_pos hm]
        exact ih _ _ hm hhi h2 (by omega)
      · rw [if_neg hm]
        have hlt : n < (lo + hi + 1) / 2 * ((lo + hi + 1) / 2) :=
          Nat.lt_of_not_le hm
        have hsucc : (lo + hi + 1) / 2 - 1 + 1 = (lo + hi + 1) / 2 := by omega
        exact ih _ _ hlo (by rw [hsucc]; exact hlt) (by omega) (by omega)

theorem isqrt_spec (n : ℕ) :
    isqrt n * isqrt n ≤ n ∧ n < (isqrt n + 1) * (isqrt n + 1) := by
  refine isqrtAux_spec n (n + 1) 0 n (by simp) ?_ (Nat.zero_le n) (by omega)
  nlinarith

theorem ratFloorNN_spec (q : ℚ) (hq : 0 ≤ q) :
    ((ratFloorNN q : ℕ) : ℚ) ≤ q ∧ q < ((ratFloorNN q : ℕ) : ℚ) + 1 := by
  have hdpos : 0 < q.den := q.pos
  have hd : (0 : ℚ) < (q.den : ℚ) := by exact_mod_cast hdpos
  have hnum : 0 ≤ q.num := Rat.num_nonneg.mpr hq
  have htn : ((q.num.toNat : ℤ)) = q.num := Int.toNat_of_nonneg hnum
  have htnq : ((q.num.toNat : ℕ) : ℚ) = ((q.num : ℤ) : ℚ) := by exact_mod_cast htn
  have hself : ((q.num : ℚ)) / (q.den : ℚ) = q := Rat.num_div_den q
  have hlow : ratFloorNN q * q.den ≤ q.num.toNat := Nat.div_mul_le_self _ _
  have hhigh : q.num.toNat < (ratFloorNN q + 1) * q.den := by
    have h1 := Nat.div_add_mod q.num.toNat q.den
    have h2 := Nat.mod_lt q.num.toNat hdpos
    calc q.num.toNat = q.den * (q.num.toNat / q.den) + q.num.toNat % q.den :=
          h1.symm
      _ < q.den * (q.num.toNat / q.den) + q.den := by omega
      _ = (q.num.toNat / q.den + 1) * q.den := by ring
  constructor
  · have h1 : ((ratFloorNN q : ℕ) : ℚ) ≤ (q.num : ℚ) / (q.den : ℚ) := by
      rw [le_div_iff₀ hd, ← htnq]
      exact_mod_cast hlow
    rwa [hself] at h1
  · have h1 : (q.num : ℚ) / (q.den : ℚ) < ((ratFloorNN q : ℕ) : ℚ) + 1 := by
      rw [div_lt_iff₀ hd, ← htnq]
      exact_mod_cast hhigh
    rwa [hself] at h1

/-- The `u = n²` test used in `jsRoundDivSqrt` detects exactly the rational
equality. -/
theorem u_eq_sq_iff (u : ℚ) (n : ℕ) :
    (u.den = 1 ∧ u.num = ((n * n : ℕ) : ℤ)) ↔ u = ((n * n : ℕ) : ℚ) := by
  constructor
  · rintro ⟨hden, hnum⟩
    refine Rat.ext ?_ ?_
    · rw [hnum, Rat.num_natCast]
    · rw [hden, Rat.den_natCast]
  · rintro rfl
    exact ⟨Rat.den_natCast _, by rw [Rat.num_natCast]⟩

/-- Correctness of `jsRoundDivSqrt`: for `M > 0` it computes
`⌊A/√M + 1/2⌋`, the exact value of JS `Math.round(A/Math.sqrt(M))`. -/
theorem jsRoundDivSqrt_eq (A M : ℚ) (hM : 0 < M) :
    (jsRoundDivSqrt A M : ℤ) = ⌊(A : ℝ) / Real.sqrt (M : ℝ) + 1 / 2⌋ := by
  have hMR : (0 : ℝ) < (M : ℝ) := by exact_mod_cast hM
  have hspos : 0 < Real.sqrt (M : ℝ) := Real.sqrt_pos.mpr hMR
  have hu4 : qDiv (qMul (qMul (mkRat 4 1) A) A) M = 4 * A ^ 2 / M := by
    rw [qMul_eq, qMul_eq, qDiv_eq, Rat.mkRat_one]
    push_cast
    ring
  set u : ℚ := 4 * A ^ 2 / M with hu
  have hunn : (0 : ℚ) ≤ u := by positivity
  have huRnn : (0 : ℝ) ≤ ((u : ℚ) : ℝ) := by exact_mod_cast hunn
  have huR : ((u : ℚ) : ℝ) = 4 * (A : ℝ) ^ 2 / (M : ℝ) := by
    rw [hu]; push_cast; ring
  have hsqu : Real.sqrt ((u : ℚ) : ℝ) = 2 * |(A : ℝ)| / Real.sqrt (M : ℝ) := by
    rw [huR]
    have h4 : 4 * (A : ℝ) ^ 2 / (M : ℝ) =
        (2 * |(A : ℝ)| / Real.sqrt (M : ℝ)) ^ 2 := by
      rw [div_pow, mul_pow, sq_abs, Real.sq_sqrt hMR.le]
      ring
    rw [h4, Real.sqrt_sq (by positivity)]
  set m : ℕ := ratFloorNN u with hm
  set n : ℕ := isqrt m with hn
  have hfl := ratFloorNN_spec u hunn
  have hsq := isqrt_spec m
  have hnle : ((n : ℝ)) ≤ Real.sqrt ((u : ℚ) : ℝ) := by
    rw [Real.le_sqrt (by positivity) huRnn]
    have h2 : ((n * n : ℕ) : ℚ) ≤ u := le_trans (by exact_mod_cast hsq.1) hfl.1
    have h3 : ((n * n : ℕ) : ℝ) ≤ ((u : ℚ) : ℝ) := by exact_mod_cast h2
    calc ((n : ℝ)) ^ 2 = ((n * n : ℕ) : ℝ) := by push_cast; ring
      _ ≤ ((u : ℚ) : ℝ) := h3
  have hnlt : Real.sqrt ((u : ℚ) : ℝ) < (n : ℝ) + 1 := by
    rw [Real.sqrt_lt' (by positivity)]
    have h3 : u < (((n + 1) * (n + 1) : ℕ) : ℚ) :=
      lt_of_lt_of_le hfl.2 (by exact_mod_cast hsq.2)
    have h4 : ((u : ℚ) : ℝ) < (((n + 1) * (n + 1) : ℕ) : ℝ) := by exact_mod_cast h3
    calc ((u : ℚ) : ℝ) < (((n + 1) * (n + 1) : ℕ) : ℝ) := h4
      _ = ((n : ℝ) + 1) ^ 2 := by push_cast; ring
  rcases le_or_lt 0 A.num with hA | hA
  · -- A ≥ 0: the result is (⌊√u⌋ + 1) / 2
    have hA' : (0 : ℚ) ≤ A := Rat.num_nonneg.mp hA
    have hAR : (0 : ℝ) ≤ (A : ℝ) := by exact_mod_cast hA'
    have habs : |(A : ℝ)| = (A : ℝ) := abs_of_nonneg hAR
    have hval : jsRoundDivSqrt A M = (((n + 1) / 2 : ℕ) : ℤ) := by
      rw [jsRoundDivSqrt, hu4, if_pos hA]
    have h2x : 2 * ((A : ℝ) / Real.sqrt (M : ℝ)) = Real.sqrt ((u : ℚ) : ℝ) := by
      rw [hsqu, habs]; ring
    rw [hval]
    symm
    rw [Int.floor_eq_iff]
    rcases Nat.even_or_odd n with ⟨w, hw⟩ | ⟨w, hw⟩
    · have hdiv : (n + 1) / 2 = w := by omega
      rw [hw] at hnle hnlt
      rw [hdiv]
      push_cast at hnle hnlt ⊢
      constructor
      · linarith [h2x, hnle]
      · linarith [h2x, hnlt]
    · have hdiv : (n + 1) / 2 = w + 1 := by omega
      rw [hw] at hnle hnlt
      rw [hdiv]
      push_cast at hnle hnlt ⊢
      constructor
      · linarith [h2x, hnle]
      · linarith [h2x, hnlt]
  · -- A < 0: the result is -(⌈√u⌉ / 2)
    have hA' : A < 0 := by
      by_contra h
      exact absurd (Rat.num_nonneg.mpr (not_lt.mp h)) (not_le.mpr hA)
    have hAR : (A : ℝ) < 0 := by exact_mod_cast hA'
    have habs : |(A : ℝ)| = -(A : ℝ) := abs_of_neg hAR
    have h2x : 2 * (-((A : ℝ) / Real.sqrt (M : ℝ))) = Real.sqrt ((u : ℚ) : ℝ) := by
      rw [hsqu, habs]; ring
    have hvneg : jsRoundDivSqrt A M =
        -(((if u.den = 1 ∧ u.num = ((n * n : ℕ) : ℤ) then n else n + 1) / 2 : ℕ) : ℤ) := by
      rw [jsRoundDivSqrt, hu4, if_neg (not_le.mpr hA)]
    by_cases hcond : u.den = 1 ∧ u.num = ((n * n : ℕ) : ℤ)
    · -- u is exactly n², so √u = n
      have hueq : u = ((n * n : ℕ) : ℚ) := (u_eq_sq_iff u n).mp hcond
      have hsqn : Real.sqrt ((u : ℚ) : ℝ) = (n : ℝ) := by
        have h5 : ((u : ℚ) : ℝ) = ((n : ℝ)) ^ 2 := by
          rw [hueq]; push_cast; ring
        rw [h5, Real.sqrt_sq (by positivity)]
      rw [hvneg, if_pos hcond]
      symm
      rw [Int.floor_eq_iff]
      rw [hsqn] at h2x
      rcases Nat.even_or_odd n with ⟨w, hw⟩ | ⟨w, hw⟩
      · have hdiv : n / 2 = w := by omega
        rw [hw] at h2x
        rw [hdiv]
        push_cast at h2x ⊢
        constructor
        · linarith [h2x]
        · linarith [h2x]
      · have hdiv : n / 2 = w := by omega
        rw [hw] at h2x
        rw [hdiv]
        push_cast at h2x ⊢
        constructor
        · linarith [h2x]
        · linarith [h2x]
    · -- u is strictly between n² and (n+1)², so n < √u < n + 1
      have hne : Real.sqrt ((u : ℚ) : ℝ) ≠ (n : ℝ) := by
        intro hcontra
        apply hcond
        apply (u_eq_sq_iff u n).mpr
        have h1 : ((u : ℚ) : ℝ) = ((n : ℝ)) ^ 2 := by
          rw [← Real.sq_sqrt huRnn, hcontra]
        have h2 : ((u : ℚ) : ℝ) = (((n * n : ℕ) : ℚ) : ℝ) := by
          rw [h1]; push_cast; ring
        exact_mod_cast h2
      have hngt : (n : ℝ) < Real.sqrt ((u : ℚ) : ℝ) :=
        lt_of_le_of_ne hnle (Ne.symm hne)
      rw [hvneg, if_neg hcond]
      symm
      rw [Int.floor_eq_iff]
      rcases Nat.even_or_odd n with ⟨w, hw⟩ | ⟨w, hw⟩
      · have hdiv : (n + 1) / 2 = w := by omega
        rw [hw] at hngt hnlt
        rw [hdiv]
        push_cast at hngt hnlt ⊢
        constructor
        · linarith [h2x, hngt, hnlt]
        · linarith [h2x, hngt, hnlt]
      · have hdiv : (n + 1) / 2 = w + 1 := by omega
        rw [hw] at hngt hnlt
        rw [hdiv]
        push_cast at hngt hnlt ⊢
        constructor
        · linarith [h2x, hngt, hnlt]
        · linarith [h2x, hngt, hnlt]

/-!  The similarity bridge: `cosineSimilarity` returns the true cosine
`dot(a,b)/(‖a‖·‖b‖)`, times 1000, rounded with `⌊· + 1/2⌋`, divided by
1000. -/

/-- Sum of squares of a vector (the source's `magA`/`magB` accumulators
before the square roots). -/
def sumSq (v : List ℚ) : ℚ := (v.map (fun x => x * x)).sum

/-- Dot product of index-aligned vectors. -/
def dotQ (a b : List ℚ) : ℚ := (List.zipWith (· * ·) a b).sum

theorem sumSq_nonneg (v : List ℚ) : 0 ≤ sumSq v := by
  apply List.sum_nonneg
  intro x hx
  rcases List.mem_map.mp hx with ⟨y, _, rfl⟩
  exact mul_self_nonneg y

theorem simFold_general (ps : List (ℚ × ℚ)) (i : ℚ × ℚ × ℚ) :
    ps.foldl (fun acc p => (qAdd acc.1 (qMul p.1 p.2),
        qAdd acc.2.1 (qMul p.1 p.1), qAdd acc.2.2 (qMul p.2 p.2))) i =
      (i.1 + (ps.map (fun p => p.1 * p.2)).sum,
        i.2.1 + (ps.map (fun p => p.1 * p.1)).sum,
        i.2.2 + (ps.map (fun p => p.2 * p.2)).sum) := by
  induction ps generalizing i with
  | nil => simp
  | cons p ps ih =>
    rw [List.foldl_cons, ih]
    simp only [qAdd_eq, qMul_eq, List.map_cons, List.sum_cons]
    rw [Prod.mk.injEq, Prod.mk.injEq]
    refine ⟨by ring, by ring, by ring⟩

theorem zip_map_mul (a b : List ℚ) :
    ((a.zip b).map fun p => p.1 * p.2) = List.zipWith (· * ·) a b := by
  induction a generalizing b with
  | nil => simp
  | cons x xs ih => cases b <;> simp [ih]

theorem zip_map_fst_sq (a b : List ℚ) (h : a.length = b.length) :
    ((a.zip b).map fun p => p.1 * p.1) = a.map fun x => x * x := by
  induction a generalizing b with
  | nil => simp
  | cons x xs ih =>
    cases b with
    | nil => simp at h
    | cons y ys =>
      simp only [List.zip_cons_cons, List.map_cons, List.cons.injEq, true_and]
      exact ih ys (by simpa using h)

theorem zip_map_snd_sq (a b : List ℚ) (h : a.length = b.length) :
    ((a.zip b).map fun p => p.2 * p.2) = b.map fun x => x * x := by
  induction a generalizing b with
  | nil => cases b with
    | nil => simp
    | cons y ys => simp at h
  | cons x xs ih =>
    cases b with
    | nil => simp at h
    | cons y ys =>
      simp only [List.zip_cons_cons, List.map_cons, List.cons.injEq, true_and]
      exact ih ys (by simpa using h)

theorem simFold_eq (a b : List ℚ) (h : a.length = b.length) :
    simFold a b = (dotQ a b, sumSq a, sumSq b) := by
  rw [simFold, simFold_general]
  simp only [zero_add, Prod.mk.injEq]
  exact ⟨by rw [dotQ, zip_map_mul], by rw [sumSq, zip_map_fst_sq a b h],
    by rw [sumSq, zip_map_snd_sq a b h]⟩

/-- The unrounded cosine of the specification, `dot(a,b)/(‖a‖·‖b‖)`, over
the reals. -/
noncomputable def cosRawR (a b : List ℚ) : ℝ :=
  ((dotQ a b : ℚ) : ℝ) /
    (Real.sqrt ((sumSq a : ℚ) : ℝ) * Real.sqrt ((sumSq b : ℚ) : ℝ))

/-- C5 (amended): for present, same-length vectors of nonzero magnitude,
`cosineSimilarity` returns the true cosine `dot(a,b)/(‖a‖·‖b‖)` rounded to
exactly 3 decimal places with `⌊x·1000 + 1/2⌋ / 1000` — JS `Math.round`
semantics, deterministic, halves toward +∞ — which is neither
round-half-away-from-zero (negative halves round up) nor
round-half-to-even (positive halves at an odd floor round up). -/
theorem C5_round_half_up (a b : List ℚ) (hlen : a.length = b.length)
    (ha : sumSq a ≠ 0) (hb : sumSq b ≠ 0) :
    ((cosineSimilarity (some a) (some b) : ℚ) : ℝ) =
      ((⌊cosRawR a b * 1000 + 1 / 2⌋ : ℤ) : ℝ) / 1000 := by
  have hsa : 0 < sumSq a := lt_of_le_of_ne (sumSq_nonneg a) (Ne.symm ha)
  have hsb : 0 < sumSq b := lt_of_le_of_ne (sumSq_nonneg b) (Ne.symm hb)
  have hcos : cosineSimilarity (some a) (some b) =
      mkRat (jsRoundDivSqrt (qMul (dotQ a b) (mkRat 1000 1))
        (qMul (sumSq a) (sumSq b))) 1000 := by
    simp only [cosineSimilarity]
    rw [if_neg (by simp [hlen]), simFold_eq a b hlen]
    rw [if_neg]
    push_neg
    exact ⟨Rat.num_ne_zero.mpr ha, Rat.num_ne_zero.mpr hb⟩
  have hA : qMul (dotQ a b) (mkRat 1000 1) = dotQ a b * 1000 := by
    rw [qMul_eq, Rat.mkRat_one]
    norm_num
  have hMq : qMul (sumSq a) (sumSq b) = sumSq a * sumSq b := qMul_eq _ _
  have hMpos : 0 < sumSq a * sumSq b := mul_pos hsa hsb
  have hround := jsRoundDivSqrt_eq (dotQ a b * 1000) (sumSq a * sumSq b) hMpos
  rw [hcos, hA, hMq, Rat.mkRat_eq_divInt, Rat.divInt_eq_div]
  push_cast
  rw [hround]
  congr 2
  rw [cosRawR]
  have hsplit : Real.sqrt ((sumSq a * sumSq b : ℚ) : ℝ) =
      Real.sqrt ((sumSq a : ℚ) : ℝ) * Real.sqrt ((sumSq b : ℚ) : ℝ) := by
    push_cast
    exact Real.sqrt_mul (by exact_mod_cast (sumSq_nonneg a)) _
  rw [hsplit]
  push_cast
  ring

/-!  Facts about the ranking pipeline. -/

instance : IsTotal SearchResult scoreGe :=
  ⟨fun a b => by
    simp only [scoreGe, qLe_iff]
    exact le_total b.score a.score⟩

instance : IsTrans SearchResult scoreGe :=
  ⟨fun a b c hab hbc => by
    simp only [scoreGe, qLe_iff] at hab hbc ⊢
    exact le_trans hbc hab⟩

theorem foldl_acc_append {α : Type} (step : List SearchResult → α → List SearchResult)
    (hstep : ∀ acc x, step acc x = acc ++ step [] x) :
    ∀ (l : List α) (acc : List SearchResult),
      l.foldl step acc = acc ++ l.foldl step [] := by
  intro l
  induction l with
  | nil => simp
  | cons x xs ih =>
    intro acc
    rw [List.foldl_cons, ih (step acc x), hstep acc x, List.foldl_cons,
      ih (step [] x), List.append_assoc]

theorem searchStep_append (qa : List ℚ) (t? fl : Option String) (th : ℚ) :
    ∀ (acc : List SearchResult) (p : String × NoteEntry),
      (fun (acc : List SearchResult) (p : String × NoteEntry) =>
        if typeRejects t? p.2.type then acc
        else if folderRejects fl p.1 then acc
        else
          if qLe th (cosineSimilarity (some qa) (some p.2.vec)) then
            acc ++ [⟨p.1, cosineSimilarity (some qa) (some p.2.vec)⟩]
          else acc) acc p =
      acc ++ (fun (acc : List SearchResult) (p : String × NoteEntry) =>
        if typeRejects t? p.2.type then acc
        else if folderRejects fl p.1 then acc
        else
          if qLe th (cosineSimilarity (some qa) (some p.2.vec)) then
            acc ++ [⟨p.1, cosineSimilarity (some qa) (some p.2.vec)⟩]
          else acc) [] p := by
  intro acc p
  dsimp only
  split_ifs <;> simp

/-- Everything retained by `searchResults` passed the filters and the
threshold, with the score computed from a matching entry of the map. -/
theorem mem_searchResults (qa : List ℚ) (emb : Embeddings)
    (t? fl : Option String) (th : ℚ) (r : SearchResult)
    (hr : r ∈ searchResults qa emb t? fl th) :
    th ≤ r.score ∧
      ∃ e : NoteEntry, (r.path, e) ∈ emb ∧ typeRejects t? e.type = false ∧
        folderRejects fl r.path = false ∧
        r.score = cosineSimilarity (some qa) (some e.vec) := by
  induction emb with
  | nil => simp [searchResults] at hr
  | cons p ps ih =>
    rw [searchResults, List.foldl_cons,
      foldl_acc_append _ (searchStep_append qa t? fl th) ps] at hr
    rcases List.mem_append.mp hr with hr1 | hr2
    · simp only at hr1
      by_cases h1 : typeRejects t? p.2.type
      · rw [if_pos h1] at hr1; simp at hr1
      · rw [if_neg h1] at hr1
        by_cases h2 : folderRejects fl p.1
        · rw [if_pos h2] at hr1; simp at hr1
        · rw [if_neg h2] at hr1
          by_cases h3 : qLe th (cosineSimilarity (some qa) (some p.2.vec)) = true
          · rw [if_pos h3] at hr1
            simp only [List.nil_append, List.mem_singleton] at hr1
            subst hr1
            refine ⟨(qLe_iff _ _).mp h3, p.2, ?_, ?_, ?_, rfl⟩
            · exact List.mem_cons_self _ _
            · exact Bool.not_eq_true _ ▸ (by simpa using h1)
            · exact Bool.not_eq_true _ ▸ (by simpa using h2)
          · rw [if_neg h3] at hr1; simp at hr1
    · have := ih (by rw [searchResults]; exact hr2)
      rcases this with ⟨hth, e, he, h4, h5, h6⟩
      exact ⟨hth, e, List.mem_cons_of_mem _ he, h4, h5, h6⟩

theorem relatedStep_append (src : NoteEntry) (notePath : String)
    (t? : Option String) (th : ℚ) :
    ∀ (acc : List SearchResult) (p : String × NoteEntry),
      (fun (acc : List SearchResult) (p : String × NoteEntry) =>
        if p.1 == notePath then acc
        else if typeRejects t? p.2.type then acc
        else
          if qLe th (cosineSimilarity (some src.vec) (some p.2.vec)) then
            acc ++ [⟨p.1, cosineSimilarity (some src.vec) (some p.2.vec)⟩]
          else acc) acc p =
      acc ++ (fun (acc : List SearchResult) (p : String × NoteEntry) =>
        if p.1 == notePath then acc
        else if typeRejects t? p.2.type then acc
        else
          if qLe th (cosineSimilarity (some src.vec) (some p.2.vec)) then
            acc ++ [⟨p.1, cosineSimilarity (some src.vec) (some p.2.vec)⟩]
          else acc) [] p := by
  intro acc p
  dsimp only
  split_ifs <;> simp

/-- Everything retained by `relatedResults` is a record other than the
source note that passed the type filter and the threshold. -/
theorem mem_relatedResults (notePath : String) (src : NoteEntry)
    (emb : Embeddings) (t? : Option String) (th : ℚ) (r : SearchResult)
    (hr : r ∈ relatedResults notePath src emb t? th) :
    th ≤ r.score ∧ r.path ≠ notePath ∧
      ∃ e : NoteEntry, (r.path, e) ∈ emb ∧ typeRejects t? e.type = false ∧
        r.score = cosineSimilarity (some src.vec) (some e.vec) := by
  induction emb with
  | nil => simp [relatedResults] at hr
  | cons p ps ih =>
    rw [relatedResults, List.foldl_cons,
      foldl_acc_append _ (relatedStep_append src notePath t? th) ps] at hr
    rcases List.mem_append.mp hr with hr1 | hr2
    · simp only at hr1
      by_cases h0 : (p.1 == notePath) = true
      · rw [if_pos h0] at hr1; simp at hr1
      · rw [if_neg h0] at hr1
        by_cases h1 : typeRejects t? p.2.type
        · rw [if_pos h1] at hr1; simp at hr1
        · rw [if_neg h1] at hr1
          by_cases h3 : qLe th (cosineSimilarity (some src.vec) (some p.2.vec)) = true
          · rw [if_pos h3] at hr1
            simp only [List.nil_append, List.mem_singleton] at hr1
            subst hr1
            refine ⟨(qLe_iff _ _).mp h3, by simpa using h0, p.2, ?_, ?_, rfl⟩
            · exact List.mem_cons_self _ _
            · exact Bool.not_eq_true _ ▸ (by simpa using h1)
          · rw [if_neg h3] at hr1; simp at hr1
    · have := ih (by rw [relatedResults]; exact hr2)
      rcases this with ⟨hth, hne, e, he, h4, h5⟩
      exact ⟨hth, hne, e, List.mem_cons_of_mem _ he, h4, h5⟩

theorem jsSlice0_sublist {α : Type} (l : List α) (e : ℤ) :
    (jsSlice0 l e).Sublist l := by
  rw [jsSlice0]
  split_ifs <;> exact List.take_sublist _ _

theorem jsSlice0_length_le {α : Type} (l : List α) (e : ℤ) (he : 0 ≤ e) :
    ((jsSlice0 l e).length : ℤ) ≤ e := by
  rw [jsSlice0, if_neg (not_lt.mpr he)]
  calc ((List.take e.toNat l).length : ℤ) ≤ (e.toNat : ℤ) := by
        exact_mod_cast (List.length_take e.toNat l) ▸ Nat.min_le_left _ _
    _ = e := Int.toNat_of_nonneg he

theorem mem_sortedSearch (qa : List ℚ) (emb : Embeddings) (o : SearchOptions)
    (r : SearchResult) (hr : r ∈ sortedSearch qa emb o) :
    r ∈ searchResults qa emb (optTruthy o.type)
      ((optTruthy o.folder).map strToLower) (o.threshold.getD DEFAULT_THRESHOLD) :=
  (List.perm_insertionSort scoreGe _).mem_iff.mp hr

theorem sortedSearch_sorted (qa : List ℚ) (emb : Embeddings)
    (o : SearchOptions) : List.Sorted scoreGe (sortedSearch qa emb o) :=
  List.sorted_insertionSort scoreGe _

theorem mem_sortedRelated (notePath : String) (src : NoteEntry)
    (emb : Embeddings) (o : SearchOptions) (r : SearchResult)
    (hr : r ∈ sortedRelated notePath src emb o) :
    r ∈ relatedResults notePath src emb (optTruthy o.type)
      (o.threshold.getD DEFAULT_THRESHOLD) :=
  (List.perm_insertionSort scoreGe _).mem_iff.mp hr

theorem sortedRelated_sorted (notePath : String) (src : NoteEntry)
    (emb : Embeddings) (o : SearchOptions) :
    List.Sorted scoreGe (sortedRelated notePath src emb o) :=
  List.sorted_insertionSort scoreGe _

/-!  Facts about the record parser and the collection loader. -/

theorem parseAjson_foldl (l : List String) :
    ∀ acc : List AjsonEntry,
      l.foldl (fun entries raw => match lineEntry raw with
        | none => entries
        | some e => entries ++ [e]) acc =
      acc ++ (l.map (fun raw => (lineEntry raw).toList)).join := by
  induction l with
  | nil => simp
  | cons x xs ih =>
    intro acc
    rw [List.foldl_cons, ih]
    cases h : lineEntry x <;> simp [h]

/-- Theorem: `parseAjsonContent` is the order-preserving concatenation of the
zero-or-one yields of each line. -/
theorem parseAjsonContent_eq_join (content : String) :
    parseAjsonContent content =
      ((jsSplit content '\n').map (fun raw => (lineEntry raw).toList)).join := by
  rw [parseAjsonContent]
  split_ifs with h
  · subst h; rfl
  · rw [parseAjson_foldl _ []]
    simp

/-- What `extractVec` accepts: exactly a non-empty array at the nested
`vec` location (the elements are not inspected). -/
theorem extractVec_char (v : Json) (vs : List Json)
    (h : extractVec v = some vs) :
    vs ≠ [] ∧
      ((jsGetField v "embeddings").bind (fun e => jsGetField e MODEL_KEY)).bind
        (fun m => jsGetField m "vec") = some (.arr vs) := by
  simp only [extractVec] at h
  split at h
  · rename_i vs' heq
    split at h
    · rename_i hlen
      cases h
      exact ⟨by simpa using List.length_pos.mp hlen, heq⟩
    · cases h
  · cases h

/-- Every record yielded by the per-line chain has the non-empty array
found by `extractVec` as its vector. -/
theorem lineEntry_vec (raw : String) (e : AjsonEntry)
    (h : lineEntry raw = some e) : e.vec ≠ [] := by
  simp only [lineEntry] at h
  split at h
  · cases h
  · split at h
    · cases h
    · split at h
      · cases h
      · split at h
        · cases h
        · rename_i vec hvec
          cases h
          exact (extractVec_char _ _ hvec).1

/-- Every record in a parsed file has a non-empty vector. -/
theorem parseAjson_vec_nonempty (content : String) (e : AjsonEntry)
    (he : e ∈ parseAjsonContent content) : e.vec ≠ [] := by
  rw [parseAjsonContent_eq_join] at he
  rcases List.mem_join.mp he with ⟨l, hl, hel⟩
  rcases List.mem_map.mp hl with ⟨raw, _, rfl⟩
  cases hle : lineEntry raw with
  | none => rw [hle] at hel; simp at hel
  | some e' =>
    rw [hle] at hel
    simp only [Option.toList_some, List.mem_singleton] at hel
    subst hel
    exact lineEntry_vec raw _ hle

theorem jmapGet_cons (p : String × JNoteEntry) (ps : List (String × JNoteEntry))
    (k : String) :
    jmapGet (p :: ps) k = if p.1 == k then some p.2 else jmapGet ps k := by
  rw [jmapGet, List.find?_cons]
  by_cases h : (p.1 == k) = true
  · rw [h]
    rfl
  · rw [Bool.not_eq_true] at h
    rw [h]
    rfl

theorem find_replace_self (m : List (String × JNoteEntry)) (k : String)
    (v : JNoteEntry) (h : m.any (fun p => p.1 == k) = true) :
    jmapGet (m.map (fun p => if p.1 == k then (k, v) else p)) k = some v := by
  induction m with
  | nil => simp at h
  | cons p ps ih =>
    simp only [List.map_cons]
    by_cases hp : (p.1 == k) = true
    · rw [if_pos hp, jmapGet_cons]
      simp
    · rw [if_neg hp, jmapGet_cons, if_neg hp]
      apply ih
      simpa [hp] using h

theorem find_append_self (m : List (String × JNoteEntry)) (k : String)
    (v : JNoteEntry) :
    jmapGet m k = none → jmapGet (m ++ [(k, v)]) k = some v := by
  induction m with
  | nil => intro _; simp [jmapGet_cons]
  | cons p ps ih =>
    intro h
    rw [jmapGet_cons] at h
    by_cases hp : (p.1 == k) = true
    · rw [if_pos hp] at h; cases h
    · rw [if_neg hp] at h
      rw [List.cons_append, jmapGet_cons, if_neg hp]
      exact ih h

theorem any_false_get_none (m : List (String × JNoteEntry)) (k : String)
    (h : m.any (fun p => p.1 == k) = false) : jmapGet m k = none := by
  induction m with
  | nil => rfl
  | cons p ps ih =>
    simp only [List.any_cons, Bool.or_eq_false_iff] at h
    rw [jmapGet_cons, if_neg (by simp [h.1])]
    exact ih h.2

theorem jmapGet_mapSet_self (m : List (String × JNoteEntry)) (k : String)
    (v : JNoteEntry) : jmapGet (mapSet m k v) k = some v := by
  rw [mapSet]
  split_ifs with h
  · exact find_replace_self m k v h
  · exact find_append_self m k v (any_false_get_none m k (Bool.eq_false_iff.mpr h))

theorem find_replace_other (m : List (String × JNoteEntry)) (k k' : String)
    (v : JNoteEntry) (hne : k' ≠ k) :
    jmapGet (m.map (fun p => if p.1 == k then (k, v) else p)) k' = jmapGet m k' := by
  induction m with
  | nil => rfl
  | cons p ps ih =>
    simp only [List.map_cons]
    by_cases hp : (p.1 == k) = true
    · have hpk : p.1 = k := by simpa using hp
      rw [if_pos hp, jmapGet_cons, jmapGet_cons,
        if_neg (by simp [Ne.symm hne]), if_neg (by simp [hpk, Ne.symm hne])]
      exact ih
    · rw [if_neg hp, jmapGet_cons, jmapGet_cons]
      by_cases hp' : (p.1 == k') = true
      · rw [if_pos hp', if_pos hp']
      · rw [if_neg hp', if_neg hp']
        exact ih

theorem find_append_other (m : List (String × JNoteEntry)) (k k' : String)
    (v : JNoteEntry) (hne : k' ≠ k) :
    jmapGet (m ++ [(k, v)]) k' = jmapGet m k' := by
  induction m with
  | nil =>
    rw [List.nil_append, jmapGet_cons, if_neg (by simp [Ne.symm hne])]
  | cons p ps ih =>
    rw [List.cons_append, jmapGet_cons, jmapGet_cons]
    by_cases hp : (p.1 == k') = true
    · rw [if_pos hp, if_pos hp]
    · rw [if_neg hp, if_neg hp]
      exact ih

theorem jmapGet_mapSet_other (m : List (String × JNoteEntry)) (k k' : String)
    (v : JNoteEntry) (hne : k' ≠ k) :
    jmapGet (mapSet m k v) k' = jmapGet m k' := by
  rw [mapSet]
  split_ifs with h
  · exact find_replace_other m k k' v hne
  · exact find_append_other m k k' v hne

theorem find?_append_or {α : Type} (p : α → Bool) (l₁ l₂ : List α) :
    List.find? p (l₁ ++ l₂) = (List.find? p l₁).orElse (fun _ => List.find? p l₂) := by
  induction l₁ with
  | nil => simp
  | cons x xs ih =>
    rw [List.cons_append, List.find?_cons, List.find?_cons]
    cases h : p x
    · simpa using ih
    · simp

/-- Inserting a file's entries left to right realises last-write-wins: the
final value at `p` is the last entry for `p`, or the previous map value when
the file defines no entry for `p`. -/
theorem loadEntries_get (entries : List AjsonEntry) :
    ∀ (m : List (String × JNoteEntry)) (p : String),
      jmapGet (entries.foldl
          (fun e entry => mapSet e entry.path ⟨entry.vec, entry.type⟩) m) p =
        match entries.reverse.find? (fun e => e.path == p) with
        | some e => some ⟨e.vec, e.type⟩
        | none => jmapGet m p := by
  induction entries with
  | nil => intro m p; rfl
  | cons e es ih =>
    intro m p
    rw [List.foldl_cons, ih, List.reverse_cons, find?_append_or]
    cases hfind : es.reverse.find? (fun e => e.path == p) with
    | some e2 => rfl
    | none =>
      simp only [Option.orElse, List.find?_cons, List.find?_nil]
      by_cases hp : (e.path == p) = true
      · rw [hp]
        have hpe : e.path = p := by simpa using hp
        subst hpe
        exact jmapGet_mapSet_self m e.path _
      · rw [Bool.not_eq_true] at hp
        rw [hp]
        have hne : e.path ≠ p := by simpa using hp
        exact jmapGet_mapSet_other m e.path p _ (Ne.symm hne)

theorem keysNodup_mapSet (m : List (String × JNoteEntry)) (k : String)
    (v : JNoteEntry) (h : (m.map Prod.fst).Nodup) :
    ((mapSet m k v).map Prod.fst).Nodup := by
  rw [mapSet]
  split_ifs with hany
  · have hkeys : (m.map (fun p => if p.1 == k then (k, v) else p)).map Prod.fst =
        m.map Prod.fst := by
      rw [List.map_map]
      apply List.map_congr_left
      intro x _
      by_cases hx : (x.1 == k) = true
      · simp [Function.comp, hx, (by simpa using hx : x.1 = k)]
      · simp [Function.comp, hx]
    rw [hkeys]
    exact h
  · rw [List.map_append]
    simp only [List.map_cons, List.map_nil]
    rw [List.nodup_append]
    refine ⟨h, List.nodup_singleton _, ?_⟩
    intro a ha hak
    simp only [List.mem_singleton] at hak
    subst hak
    rcases List.mem_map.mp ha with ⟨q, hq, hq1⟩
    apply hany
    rw [List.any_eq_true]
    exact ⟨q, hq, by simp [hq1]⟩

theorem loadEntries_keysNodup (entries : List AjsonEntry) :
    ∀ m : List (String × JNoteEntry), (m.map Prod.fst).Nodup →
      (((entries.foldl (fun e entry =>
          mapSet e entry.path ⟨entry.vec, entry.type⟩) m)).map Prod.fst).Nodup := by
  induction entries with
  | nil => intro m h; exact h
  | cons e es ih =>
    intro m h
    rw [List.foldl_cons]
    exact ih _ (keysNodup_mapSet m e.path _ h)

/-- The loaded collection has pairwise-distinct paths. -/
theorem loadEmbeddings_keysNodup (listing : Option (List (String × Option String))) :
    ((loadEmbeddings listing).map Prod.fst).Nodup := by
  cases listing with
  | none => simp [loadEmbeddings]
  | some files =>
    rw [loadEmbeddings]
    generalize files.filter (fun f => strEndsWith f.1 ".ajson") = fs
    have main : ∀ (fs : List (String × Option String))
        (m : List (String × JNoteEntry)), (m.map Prod.fst).Nodup →
        ((fs.foldl (fun emb f =>
          match f.2 with
          | none => emb
          | some content =>
            (parseAjsonContent content).foldl
              (fun e entry => mapSet e entry.path ⟨entry.vec, entry.type⟩) emb) m).map
            Prod.fst).Nodup := by
      intro fs
      induction fs with
      | nil => intro m h; exact h
      | cons f fs ih =>
        intro m h
        rw [List.foldl_cons]
        cases f.2 with
        | none => exact ih m h
        | some content => exact ih _ (loadEntries_keysNodup _ m h)
    exact main fs [] (by simp)

/-- With pairwise-distinct keys, a present key occurs exactly once. -/
theorem count_eq_one_of_get (m : List (String × JNoteEntry)) (p : String)
    (e : JNoteEntry) (hn : (m.map Prod.fst).Nodup) (hg : jmapGet m p = some e) :
    (m.filter (fun q => q.1 == p)).length = 1 := by
  induction m with
  | nil => cases hg
  | cons x xs ih =>
    rw [jmapGet_cons] at hg
    rw [List.filter_cons]
    simp only [List.map_cons, List.nodup_cons] at hn
    by_cases hx : (x.1 == p) = true
    · rw [if_pos hx] at hg ⊢
      have hxp : x.1 = p := by simpa using hx
      have hnil : xs.filter (fun q => q.1 == p) = [] := by
        rw [List.filter_eq_nil]
        intro q hq hqp
        apply hn.1
        rw [List.mem_map]
        exact ⟨q, hq, by rw [(by simpa using hqp : q.1 = p), hxp]⟩
      rw [hnil]
      rfl
    · rw [if_neg hx] at hg ⊢
      exact ih hn.2 hg

/-- A file whose read fails contributes nothing: deleting its listing entry
leaves the loaded collection unchanged. -/
theorem loadEmbeddings_skip_unreadable (files rest : List (String × Option String))
    (nm : String) :
    loadEmbeddings (some (files ++ (nm, none) :: rest)) =
      loadEmbeddings (some (files ++ rest)) := by
  rw [loadEmbeddings, loadEmbeddings, List.filter_append, List.filter_append,
    List.filter_cons]
  by_cases h : strEndsWith nm ".ajson" = true
  · simp only [h, if_pos]
    rw [List.foldl_append, List.foldl_append, List.foldl_cons]
  · simp only [h]
    rw [if_neg (by simpa using h)]

/-!  Notions used only in the claim statements. -/

/-- Does a path contain the fragment delimiter `#`? -/
def pathHasHash (p : String) : Bool := p.data.contains '#'

/-- Does `hay` contain `needle` as a contiguous substring (the sense in
which an error message could "name" a path)? -/
def strContainsSub (hay needle : String) : Bool :=
  (List.range (hay.data.length + 1)).any
    (fun i => needle.data.isPrefixOf (hay.data.drop i))

/-- Is a JSON value a number? -/
def isNumericJson : Json → Bool
  | .num _ => true
  | _ => false

/-- Modelled from the spec: rounding to 3 decimal places with halves away
from zero (one of the two policies the spec permits for the similarity
result). -/
def roundHalfAwayFromZero3 (x : ℚ) : ℚ :=
  if 0 ≤ x then ((⌊x * 1000 + 1 / 2⌋ : ℤ) : ℚ) / 1000
  else -(((⌊-x * 1000 + 1 / 2⌋ : ℤ) : ℚ) / 1000)

/-- Modelled from the spec: rounding to 3 decimal places with halves to
even (the other policy the spec permits). -/
def roundHalfToEven3 (x : ℚ) : ℚ :=
  if x * 1000 - (⌊x * 1000⌋ : ℚ) < 1 / 2 then ((⌊x * 1000⌋ : ℤ) : ℚ) / 1000
  else if 1 / 2 < x * 1000 - (⌊x * 1000⌋ : ℚ) then ((⌊x * 1000⌋ + 1 : ℤ) : ℚ) / 1000
  else if Even ⌊x * 1000⌋ then ((⌊x * 1000⌋ : ℤ) : ℚ) / 1000
  else ((⌊x * 1000⌋ + 1 : ℤ) : ℚ) / 1000

/-!  The claims. -/

/-- C1 (counterexample): the claim quantifies over all options, but with
`limit = -1` the single retained result is sliced away and the returned
length 0 is not at most the effective limit −1, so "at most `limit`
elements" fails as stated. -/
theorem C1_counterexample :
    semanticSearch "q" [("a", ⟨[1], "source"⟩)] (fun _ => some [1])
        ⟨some (-1), none, none, none⟩ = some [] ∧
      ¬ ((([] : List SearchResult).length : ℤ) ≤ -1) := by
  refine ⟨rfl, by decide⟩

/-- C1 (amended): for every collection, query, encoder and options, a
successful search is sorted by non-increasing score and every result scores
at least the effective threshold (default 0.3); and whenever the effective
limit (default 10) is non-negative — negative limits follow JS slice
semantics instead, see C10 — the result holds at most `limit` elements. -/
theorem C1_search_sorted_bounded (query : String) (emb : Embeddings)
    (embedder : String → Option (List ℚ)) (o : SearchOptions)
    (res : List SearchResult)
    (h : semanticSearch query emb embedder o = some res) :
    List.Sorted scoreGe res ∧
      (∀ r ∈ res, o.threshold.getD DEFAULT_THRESHOLD ≤ r.score) ∧
      (0 ≤ o.limit.getD DEFAULT_LIMIT →
        (res.length : ℤ) ≤ o.limit.getD DEFAULT_LIMIT) := by
  rw [semanticSearch] at h
  rcases Option.map_eq_some'.mp h with ⟨qa, hqa, hres⟩
  subst hres
  refine ⟨?_, ?_, ?_⟩
  · exact List.Pairwise.sublist (jsSlice0_sublist _ _) (sortedSearch_sorted qa emb o)
  · intro r hr
    have hr2 := (jsSlice0_sublist _ _).subset hr
    exact (mem_searchResults _ _ _ _ _ _ (mem_sortedSearch qa emb o r hr2)).1
  · intro hl
    exact jsSlice0_length_le _ _ hl

/-- C1 (witness): the amended theorem applied to a one-record collection
with the default options. -/
theorem C1_witness :
    List.Sorted scoreGe [(⟨"a", 1⟩ : SearchResult)] ∧
      (∀ r ∈ [(⟨"a", (1 : ℚ)⟩ : SearchResult)], DEFAULT_THRESHOLD ≤ r.score) ∧
      (0 ≤ DEFAULT_LIMIT →
        (([(⟨"a", (1 : ℚ)⟩ : SearchResult)].length : ℤ)) ≤ DEFAULT_LIMIT) :=
  C1_search_sorted_bounded "q" [("a", ⟨[1], "source"⟩)] (fun _ => some [1])
    ⟨none, none, none, none⟩ [⟨"a", 1⟩] rfl

/-- C2 (counterexample): the missing path "zzz" is not contained in the
error message `findRelated` throws, so the not-found condition does not
name the missing path. -/
theorem C2_counterexample :
    findRelated "zzz" [] ⟨none, none, none, none⟩ = .error findRelatedMsg ∧
      strContainsSub findRelatedMsg "zzz" = false := by
  refine ⟨rfl, rfl⟩

/-- C2 (amended): `findRelated` fails exactly when the reference path is
absent from the collection, with an explicit fixed "not found" error
message surfaced to the caller — the message does not include the missing
path; when the path is present the operation succeeds. -/
theorem C2_not_found (notePath : String) (emb : Embeddings) (o : SearchOptions) :
    (mapGet emb notePath = none →
        findRelated notePath emb o = .error findRelatedMsg) ∧
      (∀ e, mapGet emb notePath = some e →
        findRelated notePath emb o =
          .ok (jsSlice0 (sortedRelated notePath e emb o)
            (o.limit.getD DEFAULT_LIMIT))) := by
  constructor
  · intro h
    rw [findRelated, h]
  · intro e h
    rw [findRelated, h]

/-- C2 (witness): the amended theorem applied to the empty collection and
to a collection holding the path. -/
theorem C2_witness :
    findRelated "zzz" [] ⟨none, none, none, none⟩ = .error findRelatedMsg ∧
      findRelated "a" [("a", ⟨[1], "source"⟩)] ⟨none, none, none, none⟩ =
        .ok (jsSlice0 (sortedRelated "a" ⟨[1], "source"⟩
          [("a", ⟨[1], "source"⟩)] ⟨none, none, none, none⟩) 10) :=
  ⟨(C2_not_found "zzz" [] ⟨none, none, none, none⟩).1 rfl,
   (C2_not_found "a" [("a", ⟨[1], "source"⟩)] ⟨none, none, none, none⟩).2
     ⟨[1], "source"⟩ rfl⟩

/-- C3: parsing a file never raises (the model is a total function); the
result is the order-preserving concatenation of each line's zero-or-one
yields; the empty string, whitespace-only text, and non-JSON garbage yield
the empty sequence. -/
theorem C3_parse_total_lines :
    (∀ content : String, parseAjsonContent content =
        ((jsSplit content '\n').map (fun raw => (lineEntry raw).toList)).join) ∧
      parseAjsonContent "" = [] ∧
      parseAjsonContent "   \n\t " = [] ∧
      parseAjsonContent "garbage \x7bnot json" = [] :=
  ⟨parseAjsonContent_eq_join, rfl, rfl, rfl⟩

/-- C4: `cosineSimilarity` returns 0 without raising when either argument
is absent, when the lengths differ, and when either vector's magnitude is
zero (zero sum of squares). -/
theorem C4_similarity_zero_cases :
    (∀ o : Option (List ℚ), cosineSimilarity none o = 0) ∧
      (∀ o : Option (List ℚ), cosineSimilarity o none = 0) ∧
      (∀ a b : List ℚ, a.length ≠ b.length →
        cosineSimilarity (some a) (some b) = 0) ∧
      (∀ a b : List ℚ, a.length = b.length → sumSq a = 0 ∨ sumSq b = 0 →
        cosineSimilarity (some a) (some b) = 0) := by
  refine ⟨fun o => by cases o <;> rfl, fun o => by cases o <;> rfl, ?_, ?_⟩
  · intro a b h
    simp only [cosineSimilarity]
    rw [if_pos h]
  · intro a b hlen hz
    simp only [cosineSimilarity]
    rw [if_neg (by simp [hlen]), simFold_eq a b hlen]
    rw [if_pos]
    rcases hz with hz | hz
    · exact Or.inl (by simp [Rat.num_eq_zero, hz])
    · exact Or.inr (by simp [Rat.num_eq_zero, hz])

/-- C4 (witness): the zero cases evaluated at concrete inputs. -/
theorem C4_witness :
    cosineSimilarity (some [1, 2, 3]) (some [1, 2]) = 0 ∧
      cosineSimilarity (some [0, 0]) (some [1, 2]) = 0 :=
  ⟨C4_similarity_zero_cases.2.2.1 [1, 2, 3] [1, 2] (by decide),
   C4_similarity_zero_cases.2.2.2 [0, 0] [1, 2] (by decide)
     (Or.inl (by norm_num [sumSq]))⟩

/-- C5 (witness): the amended theorem at `[1,0]`, `[1,1]` (the 0.707
case). -/
theorem C5_witness :
    ((cosineSimilarity (some [1, 0]) (some [1, 1]) : ℚ) : ℝ) =
      ((⌊cosRawR [1, 0] [1, 1] * 1000 + 1 / 2⌋ : ℤ) : ℝ) / 1000 :=
  C5_round_half_up [1, 0] [1, 1] rfl (by norm_num [sumSq])
    (by norm_num [sumSq])

/-- C5 (counterexample): at vectors with true cosine exactly ±1/2000 the
code (JS `Math.round`, halves toward +∞) gives 0.001 and 0, whereas
round-half-to-even gives 0 at +1/2000 and round-half-away-from-zero gives
−0.001 at −1/2000 — so the implemented rounding is neither of the two
policies the claim allows. -/
theorem C5_counterexample :
    cosRawR [1, 0, 0, 0, 0] [1, 1999, 63, 5, 2] = ((1 / 2000 : ℚ) : ℝ) ∧
      cosineSimilarity (some [1, 0, 0, 0, 0]) (some [1, 1999, 63, 5, 2]) =
        mkRat 1 1000 ∧
      roundHalfToEven3 (1 / 2000) = 0 ∧ mkRat 1 1000 ≠ 0 ∧
      cosRawR [1, 0, 0, 0, 0] [-1, 1999, 63, 5, 2] = ((-1 / 2000 : ℚ) : ℝ) ∧
      cosineSimilarity (some [1, 0, 0, 0, 0]) (some [-1, 1999, 63, 5, 2]) = 0 ∧
      roundHalfAwayFromZero3 (-1 / 2000) = -(1 / 1000) ∧
      (0 : ℚ) ≠ -(1 / 1000) := by
  have hsa : sumSq [1, 0, 0, 0, 0] = 1 := by norm_num [sumSq]
  have hsb : sumSq ([1, 1999, 63, 5, 2] : List ℚ) = 4000000 := by
    norm_num [sumSq]
  have hsb' : sumSq ([-1, 1999, 63, 5, 2] : List ℚ) = 4000000 := by
    norm_num [sumSq]
  have hsqrt : Real.sqrt ((4000000 : ℚ) : ℝ) = 2000 := by
    have h4 : ((4000000 : ℚ) : ℝ) = (2000 : ℝ) ^ 2 := by norm_num
    rw [h4, Real.sqrt_sq (by norm_num)]
  have hfl0 : ⌊(1 / 2 : ℚ)⌋ = 0 := by
    rw [Int.floor_eq_zero_iff]
    constructor <;> norm_num
  refine ⟨?_, rfl, ?_, by decide, ?_, rfl, ?_, by norm_num⟩
  · rw [cosRawR, hsa, hsb, hsqrt]
    have hd : dotQ [1, 0, 0, 0, 0] [1, 1999, 63, 5, 2] = 1 := by
      norm_num [dotQ]
    rw [hd]
    push_cast
    rw [Real.sqrt_one]
    norm_num
  · have hx : ((1 : ℚ) / 2000) * 1000 = 1 / 2 := by norm_num
    rw [roundHalfToEven3, hx, hfl0]
    rw [if_neg (by norm_num), if_neg (by norm_num), if_pos even_zero]
    norm_num
  · rw [cosRawR, hsa, hsb', hsqrt]
    have hd : dotQ [1, 0, 0, 0, 0] [-1, 1999, 63, 5, 2] = -1 := by
      norm_num [dotQ]
    rw [hd]
    push_cast
    rw [Real.sqrt_one]
    norm_num
  · rw [roundHalfAwayFromZero3, if_neg (by norm_num)]
    have hx : -(-1 / 2000 : ℚ) * 1000 + 1 / 2 = 1 := by norm_num
    rw [hx, Int.floor_one]
    norm_num

/-- C6: when two `.ajson` files each define a record for the same path, the
loaded collection holds exactly one record for that path, equal to the
later-processed file's (last) record for it. -/
theorem C6_last_write_wins (n1 n2 c1 c2 p : String) (e2 : AjsonEntry)
    (h1 : strEndsWith n1 ".ajson" = true) (h2 : strEndsWith n2 ".ajson" = true)
    (hin1 : (parseAjsonContent c1).any (fun e => e.path == p) = true)
    (hfind : (parseAjsonContent c2).reverse.find? (fun e => e.path == p) =
      some e2) :
    jmapGet (loadEmbeddings (some [(n1, some c1), (n2, some c2)])) p =
        some ⟨e2.vec, e2.type⟩ ∧
      ((loadEmbeddings (some [(n1, some c1), (n2, some c2)])).filter
        (fun q => q.1 == p)).length = 1 := by
  have hget : jmapGet (loadEmbeddings (some [(n1, some c1), (n2, some c2)])) p =
      some ⟨e2.vec, e2.type⟩ := by
    rw [loadEmbeddings]
    rw [List.filter_cons_of_pos (by simpa using h1),
      List.filter_cons_of_pos (by simpa using h2), List.filter_nil]
    rw [List.foldl_cons, List.foldl_cons, List.foldl_nil]
    dsimp only
    rw [loadEntries_get, hfind]
  exact ⟨hget, count_eq_one_of_get _ p _ (loadEmbeddings_keysNodup _) hget⟩

set_option maxRecDepth 200000 in
/-- C6 (witness): two concrete one-line files defining path "x" with
vectors [1] and [2]; the loaded record is the second file's. -/
theorem C6_witness :
    jmapGet (loadEmbeddings (some
        [("a.ajson", some "\"smart_sources:x\": \x7b\"embeddings\":\x7b\"TaylorAI/bge-micro-v2\":\x7b\"vec\":[1]\x7d\x7d\x7d,"),
         ("b.ajson", some "\"smart_sources:x\": \x7b\"embeddings\":\x7b\"TaylorAI/bge-micro-v2\":\x7b\"vec\":[2]\x7d\x7d\x7d,")])) "x" =
        some ⟨[Json.num (mkRat 2 1)], "source"⟩ ∧
      ((loadEmbeddings (some
        [("a.ajson", some "\"smart_sources:x\": \x7b\"embeddings\":\x7b\"TaylorAI/bge-micro-v2\":\x7b\"vec\":[1]\x7d\x7d\x7d,"),
         ("b.ajson", some "\"smart_sources:x\": \x7b\"embeddings\":\x7b\"TaylorAI/bge-micro-v2\":\x7b\"vec\":[2]\x7d\x7d\x7d,")])).filter
        (fun q => q.1 == "x")).length = 1 :=
  C6_last_write_wins "a.ajson" "b.ajson" _ _ "x" ⟨"x", [Json.num (mkRat 2 1)], "source"⟩
    rfl rfl rfl rfl

/-- C7: collection loading never fails: an absent record directory yields
the empty collection, and a file that cannot be read is skipped silently,
contributing no records. -/
theorem C7_load_graceful :
    loadEmbeddings none = [] ∧
      ∀ (files rest : List (String × Option String)) (nm : String),
        loadEmbeddings (some (files ++ (nm, none) :: rest)) =
          loadEmbeddings (some (files ++ rest)) :=
  ⟨rfl, loadEmbeddings_skip_unreadable⟩

set_option maxRecDepth 200000 in
/-- C8 (counterexample): a line whose `vec` is the non-empty, non-numeric
array `["a"]` yields a record rather than nothing — the code checks only
`Array.isArray(vec) && vec.length > 0`, not that the elements are
numbers. -/
theorem C8_counterexample :
    parseAjsonContent "\"smart_sources:x\": \x7b\"embeddings\":\x7b\"TaylorAI/bge-micro-v2\":\x7b\"vec\":[\"a\"]\x7d\x7d\x7d" =
        [⟨"x", [Json.str "a"], "source"⟩] ∧
      ([Json.str "a"].all isNumericJson) = false :=
  ⟨rfl, rfl⟩

/-- C8 (amended): every record yielded by the parser — hence every record
inserted into a loaded collection — has a non-empty array as its vector,
found at the nested `vec` location; a line whose `vec` is absent or not a
non-empty array yields nothing; element numeric-ness is not checked. -/
theorem C8_vec_invariant :
    (∀ (content : String) (e : AjsonEntry), e ∈ parseAjsonContent content →
        e.vec ≠ []) ∧
      ∀ (v : Json) (vs : List Json), extractVec v = some vs →
        vs ≠ [] ∧
          ((jsGetField v "embeddings").bind (fun e => jsGetField e MODEL_KEY)).bind
            (fun m => jsGetField m "vec") = some (.arr vs) :=
  ⟨parseAjson_vec_nonempty, extractVec_char⟩

set_option maxRecDepth 200000 in
/-- C8 (witness): the invariant applied to the record parsed from a
concrete line. -/
theorem C8_witness :
    (⟨"x", [Json.str "a"], "source"⟩ : AjsonEntry).vec ≠ [] :=
  C8_vec_invariant.1
    "\"smart_sources:x\": \x7b\"embeddings\":\x7b\"TaylorAI/bge-micro-v2\":\x7b\"vec\":[\"a\"]\x7d\x7d\x7d"
    ⟨"x", [Json.str "a"], "source"⟩
    (by rw [show parseAjsonContent "\"smart_sources:x\": \x7b\"embeddings\":\x7b\"TaylorAI/bge-micro-v2\":\x7b\"vec\":[\"a\"]\x7d\x7d\x7d" = [⟨"x", [Json.str "a"], "source"⟩] from rfl]
        exact List.mem_singleton.mpr rfl)

/-- C9 (counterexample): a collection may hold a Section (block) record
whose path has no fragment delimiter; searching with the kind filter
returns it, so "only paths containing '#'" fails as stated. -/
theorem C9_counterexample :
    semanticSearch "q" [("foo", ⟨[1], "block"⟩)] (fun _ => some [1])
        ⟨none, none, some "block", none⟩ = some [⟨"foo", 1⟩] ∧
      pathHasHash "foo" = false :=
  ⟨rfl, rfl⟩

/-- C9 (amended): with a (non-empty) kind filter, `semanticSearch` and
`findRelated` return only records of that kind — so paths contain `#`
under the additional hypothesis that every block record's path does; with a
(non-empty) `pathPrefix`, all of search's results case-insensitively start
with it (`findRelated` has no pathPrefix option); supplying both filters to
search intersects their effects. -/
theorem C9_filters (emb : Embeddings) (query notePath : String)
    (embedder : String → Option (List ℚ)) (l : Option ℤ) (th : Option ℚ)
    (t f : String) (ht : t ≠ "") (hf : f ≠ "")
    (res res' : List SearchResult)
    (hs : semanticSearch query emb embedder ⟨l, th, some t, some f⟩ = some res)
    (hr : findRelated notePath emb ⟨l, th, some t, some f⟩ = .ok res') :
    (∀ r ∈ res, (∃ e : NoteEntry, (r.path, e) ∈ emb ∧ e.type = t) ∧
        strStartsWith (strToLower r.path) (strToLower f) = true ∧
        (t = "block" →
          (∀ p e, (p, e) ∈ emb → e.type = "block" → pathHasHash p = true) →
          pathHasHash r.path = true)) ∧
      ∀ r ∈ res', ∃ e : NoteEntry, (r.path, e) ∈ emb ∧ e.type = t := by
  have htt : optTruthy (some t) = some t := by simp [optTruthy, ht]
  have hft : optTruthy (some f) = some f := by simp [optTruthy, hf]
  constructor
  · rw [semanticSearch] at hs
    rcases Option.map_eq_some'.mp hs with ⟨qa, hqa, hres⟩
    subst hres
    intro r hr'
    have hr2 := (jsSlice0_sublist _ _).subset hr'
    have hm := mem_searchResults _ _ _ _ _ _ (mem_sortedSearch qa emb _ r hr2)
    rcases hm.2 with ⟨e, he, htype, hfold, hscore⟩
    rw [htt] at htype
    rw [hft] at hfold
    have hetype : e.type = t := by
      simpa [typeRejects] using htype
    have hstart : strStartsWith (strToLower r.path) (strToLower f) = true := by
      simpa [folderRejects] using hfold
    refine ⟨⟨e, he, hetype⟩, hstart, ?_⟩
    intro hblock hall
    exact hall r.path e he (hetype.trans hblock)
  · rw [findRelated] at hr
    cases hsrc : mapGet emb notePath with
    | none =>
      rw [hsrc] at hr
      dsimp only at hr
      exact Except.noConfusion hr
    | some src =>
      rw [hsrc] at hr
      dsimp only at hr
      injection hr with hres2
      subst hres2
      intro r hr'
      have hr2 := (jsSlice0_sublist _ _).subset hr'
      have hm := mem_relatedResults _ _ _ _ _ _ (mem_sortedRelated _ _ emb _ r hr2)
      rcases hm.2.2 with ⟨e, he, htype, hscore⟩
      rw [htt] at htype
      exact ⟨e, he, by simpa [typeRejects] using htype⟩

/-- C9 (witness): the amended theorem at a one-block collection whose
block path contains `#`, with both filters supplied. -/
theorem C9_witness :
    (∀ r ∈ [(⟨"a.md#S", (1 : ℚ)⟩ : SearchResult)],
        (∃ e : NoteEntry, (r.path, e) ∈
            [("a.md#S", (⟨[1], "block"⟩ : NoteEntry))] ∧ e.type = "block") ∧
        strStartsWith (strToLower r.path) (strToLower "A.MD") = true ∧
        ("block" = "block" →
          (∀ p e, (p, e) ∈ [("a.md#S", (⟨[1], "block"⟩ : NoteEntry))] →
            e.type = "block" → pathHasHash p = true) →
          pathHasHash r.path = true)) ∧
      ∀ r ∈ ([] : List SearchResult), ∃ e : NoteEntry,
        (r.path, e) ∈ [("a.md#S", (⟨[1], "block"⟩ : NoteEntry))] ∧
          e.type = "block" :=
  C9_filters [("a.md#S", ⟨[1], "block"⟩)] "q" "a.md#S" (fun _ => some [1])
    none none "block" "A.MD" (by decide) (by decide)
    [⟨"a.md#S", 1⟩] [] rfl rfl

/-- C10: a negative limit is neither clamped nor an error: the functions
return the score-sorted retained results without the final |limit| ones
(JS `slice(0, limit)`), the empty sequence when |limit| is at least the
retained count, and a limit of 0 always yields the empty sequence. -/
theorem C10_negative_limit (query notePath : String) (emb : Embeddings)
    (embedder : String → Option (List ℚ)) (qa : List ℚ) (th : Option ℚ)
    (t f : Option String) (l : ℤ) (src : NoteEntry)
    (hqa : embedder query = some qa) (hsrc : mapGet emb notePath = some src)
    (hl : l < 0) :
    (semanticSearch query emb embedder ⟨some l, th, t, f⟩ =
        some ((sortedSearch qa emb ⟨some l, th, t, f⟩).take
          ((((sortedSearch qa emb ⟨some l, th, t, f⟩).length : ℤ) + l).toNat)) ∧
      (((sortedSearch qa emb ⟨some l, th, t, f⟩).length : ℤ) ≤ -l →
        semanticSearch query emb embedder ⟨some l, th, t, f⟩ = some [])) ∧
      (findRelated notePath emb ⟨some l, th, t, f⟩ =
        .ok ((sortedRelated notePath src emb ⟨some l, th, t, f⟩).take
          ((((sortedRelated notePath src emb ⟨some l, th, t, f⟩).length : ℤ) + l).toNat)) ∧
      (((sortedRelated notePath src emb ⟨some l, th, t, f⟩).length : ℤ) ≤ -l →
        findRelated notePath emb ⟨some l, th, t, f⟩ = .ok [])) ∧
      (semanticSearch query emb embedder ⟨some 0, th, t, f⟩ = some [] ∧
        findRelated notePath emb ⟨some 0, th, t, f⟩ = .ok []) := by
  have hslice : ∀ (xs : List SearchResult),
      jsSlice0 xs l = xs.take (((xs.length : ℤ) + l).toNat) := by
    intro xs
    rw [jsSlice0, if_pos hl]
  have hslice0 : ∀ (xs : List SearchResult), jsSlice0 xs (0 : ℤ) = [] := by
    intro xs
    rw [jsSlice0, if_neg (by omega)]
    simp
  have hempty : ∀ (xs : List SearchResult), ((xs.length : ℤ) ≤ -l) →
      xs.take (((xs.length : ℤ) + l).toNat) = [] := by
    intro xs hlen
    have : (((xs.length : ℤ) + l).toNat) = 0 := by omega
    rw [this]
    simp
  refine ⟨⟨?_, ?_⟩, ⟨?_, ?_⟩, ?_, ?_⟩
  · simp only [semanticSearch, hqa, Option.map_some', Option.getD_some]
    rw [hslice]
  · intro hlen
    simp only [semanticSearch, hqa, Option.map_some', Option.getD_some]
    rw [hslice, hempty _ hlen]
  · simp only [findRelated, hsrc, Option.getD_some]
    rw [hslice]
  · intro hlen
    simp only [findRelated, hsrc, Option.getD_some]
    rw [hslice, hempty _ hlen]
  · simp only [semanticSearch, hqa, Option.map_some', Option.getD_some]
    rw [hslice0]
  · simp only [findRelated, hsrc, Option.getD_some]
    rw [hslice0]

/-- C10 (witness): the theorem at a one-record collection with
`limit = -1`. -/
theorem C10_witness :
    (semanticSearch "q" [("a", ⟨[1], "source"⟩)] (fun _ => some [1])
        ⟨some (-1), none, none, none⟩ =
        some ((sortedSearch [1] [("a", ⟨[1], "source"⟩)]
            ⟨some (-1), none, none, none⟩).take
          ((((sortedSearch [1] [("a", ⟨[1], "source"⟩)]
            ⟨some (-1), none, none, none⟩).length : ℤ) + (-1)).toNat)) ∧
      (((sortedSearch [1] [("a", ⟨[1], "source"⟩)]
          ⟨some (-1), none, none, none⟩).length : ℤ) ≤ -(-1) →
        semanticSearch "q" [("a", ⟨[1], "source"⟩)] (fun _ => some [1])
          ⟨some (-1), none, none, none⟩ = some [])) ∧
      (findRelated "a" [("a", ⟨[1], "source"⟩)] ⟨some (-1), none, none, none⟩ =
        .ok ((sortedRelated "a" ⟨[1], "source"⟩ [("a", ⟨[1], "source"⟩)]
            ⟨some (-1), none, none, none⟩).take
          ((((sortedRelated "a" ⟨[1], "source"⟩ [("a", ⟨[1], "source"⟩)]
            ⟨some (-1), none, none, none⟩).length : ℤ) + (-1)).toNat)) ∧
      (((sortedRelated "a" ⟨[1], "source"⟩ [("a", ⟨[1], "source"⟩)]
          ⟨some (-1), none, none, none⟩).length : ℤ) ≤ -(-1) →
        findRelated "a" [("a", ⟨[1], "source"⟩)]
          ⟨some (-1), none, none, none⟩ = .ok [])) ∧
      (semanticSearch "q" [("a", ⟨[1], "source"⟩)] (fun _ => some [1])
          ⟨some 0, none, none, none⟩ = some [] ∧
        findRelated "a" [("a", ⟨[1], "source"⟩)] ⟨some 0, none, none, none⟩ =
          .ok []) :=
  C10_negative_limit "q" "a" [("a", ⟨[1], "source"⟩)] (fun _ => some [1])
    [1] none none none (-1) ⟨[1], "source"⟩ rfl rfl (by decide)

end SmartSearch